import Mathlib


/-!
Verification development for the `project_to_markdown` repository.

The embedding below models the file classification and collection engine of
`src/project_to_markdown/analyzer.py` together with the policy data of
`src/project_to_markdown/constants.py`.  The filesystem is modelled as an
inductive tree of entries; each file carries the data the analyzer can
observe about it: its size as reported by `os.path.getsize`, the bytes a
binary probe (`open(..., 'rb').read(1024)`) would return (`none` models an
`OSError`/`PermissionError` during the probe), and the result of reading the
file as UTF-8 text (`Except` models `UnicodeDecodeError`, `PermissionError`
and other read errors).  OS-level stat failures are not modelled.
-/

namespace PTM

/-- Ways reading a file as text (`open(path, 'r', encoding='utf-8')`) can fail:
`decodeErr` models `UnicodeDecodeError`, `permErr` models `PermissionError`,
`otherErr` models any other exception. -/
inductive ReadErr where
  | decodeErr (msg : String)
  | permErr
  | otherErr (msg : String)
deriving DecidableEq

instance : DecidableEq (Except ReadErr String) := fun x y =>
  match x, y with
  | .ok a, .ok b => if h : a = b then .isTrue (by rw [h]) else .isFalse (by simp [h])
  | .error a, .error b => if h : a = b then .isTrue (by rw [h]) else .isFalse (by simp [h])
  | .ok _, .error _ => .isFalse (by simp)
  | .error _, .ok _ => .isFalse (by simp)

/-- What the analyzer can observe about a file on disk: its byte size
(`os.path.getsize`), the first bytes returned by a binary-mode read
(`none` = the read raised), and the result of a full text read. -/
structure FileData where
  size : Nat
  bytes : Option (List Nat)
  text : Except ReadErr String
deriving DecidableEq

/-- A directory tree entry.  `errDir` is a directory whose listing raises
(`PermissionError`/`FileNotFoundError`), carrying the exception message. -/
inductive Entry where
  | file (name : String) (fd : FileData)
  | dir (name : String) (children : List Entry)
  | errDir (name : String) (msg : String)

mutual
/-- A structural size of an entry, used as traversal fuel: it strictly
exceeds the height of the tree. -/
def entryFuel : Entry → Nat
  | .file _ _ => 1
  | .errDir _ _ => 1
  | .dir _ children => 1 + entriesFuel children

/-- Sum of `entryFuel` over a list of entries. -/
def entriesFuel : List Entry → Nat
  | [] => 0
  | e :: rest => entryFuel e + entriesFuel rest
end

/-- The entry's basename, as returned by `os.listdir`. -/
def entryName : Entry → String
  | .file n _ => n
  | .dir n _ => n
  | .errDir n _ => n

/-- `os.path.isdir` on an entry (an unlistable directory is still a directory). -/
def isDirE : Entry → Bool
  | .file _ _ => false
  | .dir _ _ => true
  | .errDir _ _ => true

/-! ## Policy data from `constants.py` -/

/-- `constants.SENSITIVE_FILES`: files that might contain sensitive
information; the constants module says these will always be excluded. -/
def SENSITIVE_FILES : List String :=
  [".env", ".env.local", ".env.development", ".env.production", ".env.test",
   ".Renviron", ".Rprofile", "credentials.json", "client_secrets.json",
   "service-account.json", "config.json", "settings.json", "secrets.yaml",
   "secrets.yml", ".npmrc", ".pypirc", "id_rsa", "id_dsa", "id_ecdsa",
   ".aws/credentials", "wp-config.php", "connection.json", "database.ini",
   "database.yml", "database.yaml"]

/-- `constants.DEFAULT_EXCLUDE_FILES`: lock files plus all sensitive files. -/
def DEFAULT_EXCLUDE_FILES : List String :=
  ["package-lock.json", "yarn.lock", "renv.lock", "poetry.lock",
   "Gemfile.lock", "composer.lock", "Cargo.lock", "packages.lock.json"]
  ++ SENSITIVE_FILES

/-- `constants.KNOWN_TEXT_EXTENSIONS`: extensions the constants module says
do not need content verification. -/
def KNOWN_TEXT_EXTENSIONS : List String :=
  [".txt", ".md", ".tex", ".py", ".json", ".yml", ".yaml", ".qmd"]

/-- `constants.DEFAULT_EXCLUDE_DIRS`. -/
def DEFAULT_EXCLUDE_DIRS : List String :=
  [".git", "__pycache__", "node_modules", "venv", ".venv",
   "env", ".env", "renv", ".idea", ".vscode", "dist", "build",
   "coverage", "tmp", ".next", ".nuxt", ".pytest_cache",
   ".mypy_cache", ".ruff_cache", ".hypothesis",
   "_site", ".jekyll-cache", "project_to_markdown_output"]

/-- `constants.CODE_FILE_EXTENSIONS`. -/
def CODE_FILE_EXTENSIONS : List String :=
  [".py", ".pyi", ".pyx", ".pxd",
   ".js", ".ts", ".jsx", ".tsx", ".vue", ".svelte", ".html", ".css", ".scss", ".less",
   ".java", ".cpp", ".c", ".h", ".hpp", ".cs", ".go", ".rs", ".php", ".rb",
   ".sh", ".bash", ".zsh", ".fish", ".ps1", ".bat", ".cmd",
   ".json", ".yaml", ".yml", ".toml", ".ini", ".conf", ".env",
   ".md", ".rst", ".tex", ".txt", ".qmd",
   ".scala", ".kt", ".kts", ".swift", ".m", ".mm", ".r", ".pl", ".pm",
   ".groovy", ".gradle", ".clj", ".cls", ".ex", ".exs"]

/-- `constants.NO_EXT_CODE_FILES`. -/
def NO_EXT_CODE_FILES : List String :=
  ["dockerfile", "containerfile", "makefile", "jenkinsfile", "vagrantfile",
   "gemfile", "rakefile", "procfile", "brewfile", "justfile",
   "dockerignore", "editorconfig", "pylintrc"]

/-- `constants.MIN_LINES_PER_FILE`. -/
def MIN_LINES_PER_FILE : Nat := 5

/-- `constants.MAX_TOTAL_SIZE_BYTES` (500 MB). -/
def MAX_TOTAL_SIZE_BYTES : Nat := 500 * 1024 * 1024

/-! ## The analyzer configuration (`ProjectAnalyzer.__init__`) -/

/-- The immutable configuration of a `ProjectAnalyzer` (the fields set in
`__init__` that never change afterwards).  Sets are modelled as lists queried
with `contains`. -/
structure Analyzer where
  exclude_dirs : List String
  exclude_files : List String
  max_file_size : Nat
  max_files : Nat
  max_depth : Option Nat
  max_lines : Nat

/-- `ProjectAnalyzer.__init__`: `exclude_dirs` is `DEFAULT_EXCLUDE_DIRS`
union the caller's extra directories, while `exclude_files` is only the
caller-supplied set (the constructor does not consult `DEFAULT_EXCLUDE_FILES`
or `SENSITIVE_FILES`). -/
def mkAnalyzer (extraDirs extraFiles : List String)
    (max_file_size : Nat := 1024 * 1024) (max_files : Nat := 1000)
    (max_depth : Option Nat := none) (max_lines : Nat := 500) : Analyzer :=
  { exclude_dirs := DEFAULT_EXCLUDE_DIRS ++ extraDirs
    exclude_files := extraFiles
    max_file_size := max_file_size
    max_files := max_files
    max_depth := max_depth
    max_lines := max_lines }

/-- An analyzer constructed with all defaults. -/
def defaultAnalyzer : Analyzer := mkAnalyzer [] []

/-- The mutable per-run statistics of the analyzer
(`files_analyzed`, `total_size`, `skipped_files`).  The skip record is a
Python dict from path to reason, modelled as an insertion-ordered
association list. -/
structure Stats where
  files_analyzed : Nat
  total_size : Nat
  skipped : List (String × String)
deriving DecidableEq

/-- The statistics as initialized by `__init__`. -/
def initStats : Stats := ⟨0, 0, []⟩

/-- `d[k] = v` on a Python dict modelled as an association list: an existing
key keeps its position and gets the new value, a new key is appended. -/
def dictSet (d : List (String × String)) (k v : String) : List (String × String) :=
  if d.any (fun p => p.1 = k) then
    d.map (fun p => if p.1 = k then (k, v) else p)
  else d ++ [(k, v)]

/-! ## String helpers mirroring the Python primitives -/

/-- `content.split('\n')` at character-list level: splitting on `'\n'`
keeps empty segments and maps the empty list to `[[]]`, exactly like
Python's `str.split` with an explicit separator. -/
def splitChars : List Char → List (List Char)
  | [] => [[]]
  | c :: cs =>
    if c = '\n' then [] :: splitChars cs
    else
      match splitChars cs with
      | [] => [[c]]
      | t :: ts => (c :: t) :: ts

/-- `content.split('\n')`. -/
def pySplit (s : String) : List String := (splitChars s.toList).map String.mk

/-- `'\n'.join(parts)` at character-list level. -/
def joinChars : List (List Char) → List Char
  | [] => []
  | [x] => x
  | x :: y :: xs => x ++ '\n' :: joinChars (y :: xs)

/-- `'\n'.join(parts)`. -/
def pyJoin (ls : List String) : String := String.mk (joinChars (ls.map String.toList))

/-- ASCII lower-casing of one character (Python's `str.lower` restricted to
ASCII, which covers every name the policy sets contain). -/
def asciiLower (c : Char) : Char :=
  if 65 ≤ c.toNat ∧ c.toNat ≤ 90 then Char.ofNat (c.toNat + 32) else c

/-- `s.lower()` (ASCII case mapping). -/
def pyLower (s : String) : String := String.mk (s.toList.map asciiLower)

/-- Python's `str.isspace` characters in the ASCII range: space, tab,
line feed, carriage return, vertical tab, form feed. -/
def isPySpace (c : Char) : Bool :=
  c = ' ' || c = '\t' || c = '\n' || c = '\r' || c = '\x0b' || c = '\x0c'

/-- `s.strip()`: remove leading and trailing whitespace. -/
def pyStrip (s : String) : String :=
  String.mk (((s.toList.dropWhile isPySpace).reverse.dropWhile isPySpace).reverse)

/-- Lexicographic strict comparison of two character lists by code point,
the order Python uses to compare strings. -/
def charListLt : List Char → List Char → Bool
  | [], [] => false
  | [], _ :: _ => true
  | _ :: _, [] => false
  | a :: as, b :: bs => if a < b then true else if b < a then false else charListLt as bs

/-- `s <= t` on strings by code point, as Python's sort comparisons. -/
def nameLe (s t : String) : Bool := !(charListLt t.data s.data)

/-- The number of lines `sum(1 for _ in f)` yields when iterating an open
text file whose full content is `s`: Python file iteration counts newline
characters, plus one for a final unterminated line. -/
def pyLineCount (s : String) : Nat :=
  let cs := s.toList
  if cs.isEmpty then 0
  else cs.count '\n' + (if cs.getLastD ' ' = '\n' then 0 else 1)

/-- Index of the last `'.'` in a character list, if any. -/
def lastDotIdx (cs : List Char) : Option Nat :=
  ((List.range cs.length).filter (fun i => cs.getD i ' ' = '.')).getLast?

/-- `os.path.splitext` on a basename: the extension starts at the last dot,
except that leading dots of the basename never start an extension
(`splitext('.env') = ('.env', '')`). -/
def splitext (name : String) : String × String :=
  let cs := name.toList
  match lastDotIdx cs with
  | none => (name, "")
  | some i =>
    if (cs.take i).any (fun c => c != '.') then
      (String.mk (cs.take i), String.mk (cs.drop i))
    else (name, "")

/-- Python's `f"{size / 1024:.1f}"` for a byte count: the exact value
`size/1024` rounded half-to-even at one decimal place (exact for any
realistic size, since `size/1024` is a dyadic rational the float holds
exactly). -/
def fmtKB (size : Nat) : String :=
  let t := size * 10
  let q := t / 1024
  let r := t % 1024
  let rounded := if 512 < r then q + 1 else if r < 512 then q else if q % 2 = 0 then q else q + 1
  Nat.repr (rounded / 10) ++ "." ++ Nat.repr (rounded % 10)

/-! ## `ProjectAnalyzer` methods -/

/-- `ProjectAnalyzer.process_content`: split into lines on `'\n'`; if there
are more than `max_lines` lines keep the first `max_lines`, append the
truncation marker (whose text itself begins with `'\n'`), and join with
`'\n'`; otherwise return the content unchanged. -/
def process_content (max_lines : Nat) (content : String) : String :=
  if max_lines < (pySplit content).length then
    pyJoin ((pySplit content).take max_lines ++
      ["\n... [Content truncated - exceeded " ++ Nat.repr max_lines ++ " lines] ..."])
  else content

/-- `ProjectAnalyzer.is_text_file`: read up to 1024 bytes in binary mode and
require every byte to be below 128; a read failure classifies as not text.
(The packaged analyzer has no extension fast path; `KNOWN_TEXT_EXTENSIONS`
is never consulted.) -/
def is_text_file (fd : FileData) : Bool :=
  match fd.bytes with
  | none => false
  | some bs => (bs.take 1024).all (fun b => b < 128)

/-- `ProjectAnalyzer.is_code_file`: decides whether the file is included and
updates `skipped_files`.  Returns the decision together with the new skip
record.  `path` is the full path used as the skip-record key, `name` its
basename. -/
def is_code_file (a : Analyzer) (path name : String) (fd : FileData)
    (sk : List (String × String)) : Bool × List (String × String) :=
  if a.exclude_files.contains name then (false, sk)
  else if !(is_text_file fd) then (false, dictSet sk path "binary file")
  else
    match fd.text with
    | .error _ => (false, sk)
    | .ok content =>
      let lc := pyLineCount content
      if lc < MIN_LINES_PER_FILE then
        (false, dictSet sk path ("too few lines (" ++ Nat.repr lc ++ ")"))
      else if NO_EXT_CODE_FILES.contains (pyLower name) then (true, sk)
      else if CODE_FILE_EXTENSIONS.contains (pyLower (splitext name).2) then (true, sk)
      else (false, dictSet sk path "unknown type")

/-- The "comes no later than" relation Python's stable ascending sort uses
on names. -/
def entryLe (x y : Entry) : Prop := nameLe (entryName x) (entryName y) = true

instance : DecidableRel entryLe := fun _ _ => instDecidableEqBool _ _

/-- `sorted(os.listdir(path))`: entries sorted by name (Python's stable
ascending sort on strings compares code points lexicographically). -/
def sortEntries (l : List Entry) : List Entry :=
  List.insertionSort entryLe l

/-- The depth guard `self.max_depth is not None and current_depth > self.max_depth`. -/
def depthExceeded (a : Analyzer) (depth : Nat) : Bool :=
  match a.max_depth with
  | some m => m < depth
  | none => false

/-- The full path of the directory identified by root-relative components
`comps` (`os.path.join` chains with `/`). -/
def dirPath (root : String) (comps : List String) : String :=
  if comps.isEmpty then root else root ++ "/" ++ String.intercalate "/" comps

/-- The body of `collect_code_files.process_directory` handling one file
entry: the size ceiling, classification via `is_code_file`, the text read
with its error taxonomy, content processing, the empty-content silent skip,
and on success the `(relative path, content)` pair plus counter updates. -/
def handleFile (a : Analyzer) (root : String) (comps : List String) (n : String)
    (fd : FileData) (st : Stats) : List (String × String) × Stats :=
  let rel := String.intercalate "/" (comps ++ [n])
  let full := root ++ "/" ++ rel
  if a.max_file_size < fd.size then
    ([], { st with skipped := dictSet st.skipped full ("file too large (" ++ fmtKB fd.size ++ "KB)") })
  else
    let r := is_code_file a full n fd st.skipped
    if r.1 then
      match fd.text with
      | .ok content0 =>
        let content := process_content a.max_lines content0
        if (pyStrip content).length = 0 then ([], { st with skipped := r.2 })
        else ([(rel, content)],
          { files_analyzed := st.files_analyzed + 1
            total_size := st.total_size + content.length
            skipped := r.2 })
      | .error (.decodeErr m) => ([], { st with skipped := dictSet r.2 full ("encoding error: " ++ m) })
      | .error .permErr => ([], { st with skipped := dictSet r.2 full "permission denied" })
      | .error (.otherErr m) => ([], { st with skipped := dictSet r.2 full ("error: " ++ m) })
    else ([], { st with skipped := r.2 })

/-- The `for item in sorted(os.listdir(path))` loop of `process_directory`:
skips entries named in `exclude_dirs` before any type test, recurses into
directories via `recur`, and handles files via `handleFile`.  Collected
pairs accumulate in traversal order; statistics thread through. -/
def collectLoopGen
    (recur : List String → Entry → Nat → Stats → List (String × String) × Stats)
    (a : Analyzer) (root : String) (comps : List String) (depth : Nat) :
    List Entry → Stats → List (String × String) × Stats
  | [], st => ([], st)
  | e :: rest, st =>
    if a.exclude_dirs.contains (entryName e) then
      collectLoopGen recur a root comps depth rest st
    else
      match e with
      | .file n fd =>
        let r1 := handleFile a root comps n fd st
        let r2 := collectLoopGen recur a root comps depth rest r1.2
        (r1.1 ++ r2.1, r2.2)
      | .dir n _ =>
        let r1 := recur (comps ++ [n]) e (depth + 1) st
        let r2 := collectLoopGen recur a root comps depth rest r1.2
        (r1.1 ++ r2.1, r2.2)
      | .errDir n _ =>
        let r1 := recur (comps ++ [n]) e (depth + 1) st
        let r2 := collectLoopGen recur a root comps depth rest r1.2
        (r1.1 ++ r2.1, r2.2)

/-- `collect_code_files.process_directory` with a structural fuel parameter
(the fuel only bounds the recursion depth; `collect_code_files` passes a
bound that is never reached, so the fuel-0 branch is dead there).  Guard
order follows the source: depth limit, then `files_analyzed >= max_files`,
then `total_size > MAX_TOTAL_SIZE_BYTES`; an unlistable directory records
`"directory error: ..."` for the directory path. -/
def processDirF : Nat → Analyzer → String → List String → Entry → Nat → Stats →
    List (String × String) × Stats
  | 0, _, _, _, _, _, st => ([], st)
  | f + 1, a, root, comps, e, depth, st =>
    if depthExceeded a depth then ([], st)
    else if a.max_files ≤ st.files_analyzed then ([], st)
    else if MAX_TOTAL_SIZE_BYTES < st.total_size then ([], st)
    else
      match e with
      | .file _ _ => ([], st)
      | .errDir _ msg =>
        ([], { st with skipped := dictSet st.skipped (dirPath root comps) ("directory error: " ++ msg) })
      | .dir _ children =>
        collectLoopGen (fun comps2 e2 depth2 st2 => processDirF f a root comps2 e2 depth2 st2)
          a root comps depth (sortEntries children) st
termination_by structural f _ _ _ _ _ _ => f

/-- `ProjectAnalyzer.collect_code_files`: resets `files_analyzed` (but not
`total_size` or `skipped_files`) and traverses from the root directory
entry.  Returns the collected `(relative path, content)` list and the
updated statistics.  `sizeOf e` strictly exceeds the recursion depth, so it
is a sufficient fuel. -/
def collect_code_files (a : Analyzer) (root : String) (e : Entry) (st : Stats) :
    List (String × String) × Stats :=
  processDirF (entryFuel e) a root [] e 0 { st with files_analyzed := 0 }

/-- `os.path.isdir` display: directories get a trailing separator in the tree. -/
def displayName : Entry → String
  | .file n _ => n
  | .dir n _ => n ++ "/"
  | .errDir n _ => n ++ "/"

/-- The `for i, item in enumerate(contents)` loop of `generate_tree.add_to_tree`:
each entry gets a branch marker (`"└── "` for the last entry), directories
are descended into via `recur` with the extended prefix. -/
def treeLoopGen (recur : Entry → String → Nat → List String)
    (pfx : String) (depth : Nat) : List Entry → List String
  | [] => []
  | c :: rest =>
    let isLast := rest.isEmpty
    let branch := if isLast then "└── " else "├── "
    let line := pfx ++ branch ++ displayName c
    let sub := if isDirE c then recur c (pfx ++ (if isLast then "    " else "│   ")) (depth + 1) else []
    line :: (sub ++ treeLoopGen recur pfx depth rest)

/-- `generate_tree.add_to_tree` with a structural fuel parameter (dead at
the bound `generate_tree` passes): the depth guard, the listing sorted and
then filtered by `exclude_dirs` membership of the entry NAME (files
included), and the `[Error: ...]` line for an unlistable directory. -/
def addToTreeF : Nat → Analyzer → Entry → String → Nat → List String
  | 0, _, _, _, _ => []
  | f + 1, a, e, pfx, depth =>
    if depthExceeded a depth then []
    else
      match e with
      | .file _ _ => []
      | .errDir _ msg => [pfx ++ "├── [Error: " ++ msg ++ "]"]
      | .dir _ children =>
        treeLoopGen (fun c pfx2 d2 => addToTreeF f a c pfx2 d2) pfx depth
          ((sortEntries children).filter (fun c => !(a.exclude_dirs.contains (entryName c))))
termination_by structural f _ _ _ _ => f

/-- The list of lines `generate_tree` builds: the root directory's basename
followed by the recursive rendering. -/
def treeRootLines (a : Analyzer) (e : Entry) : List String :=
  entryName e :: addToTreeF (entryFuel e) a e "" 0

/-- `ProjectAnalyzer.generate_tree`: the tree lines joined with `'\n'`. -/
def generate_tree (a : Analyzer) (e : Entry) : String :=
  String.intercalate "\n" (treeRootLines a e)

/-- A plain ASCII text file whose reads all succeed: size and probe bytes
derived from the content. -/
def asciiFile (content : String) : FileData :=
  { size := content.length
    bytes := some (content.toList.map Char.toNat)
    text := .ok content }

/-! ## Order lemmas for the name comparison -/

theorem charListLt_asymm : ∀ (a b : List Char),
    charListLt a b = true → charListLt b a = false
  | [], b => by cases b <;> simp [charListLt]
  | _ :: _, [] => by simp [charListLt]
  | a :: as, b :: bs => by
    simp only [charListLt]
    intro h1
    by_cases hab : a < b
    · rw [if_neg (lt_asymm hab), if_pos hab]
    · by_cases hba : b < a
      · rw [if_neg hab, if_pos hba] at h1
        exact absurd h1 (by simp)
      · rw [if_neg hab, if_neg hba] at h1
        rw [if_neg hba, if_neg hab]
        exact charListLt_asymm as bs h1

theorem charListLt_trans : ∀ (a b c : List Char),
    charListLt a b = true → charListLt b c = true → charListLt a c = true
  | [], b, c => by cases b <;> cases c <;> simp [charListLt]
  | _ :: _, [], _ => by simp [charListLt]
  | _ :: _, _ :: _, [] => by
    intro _ h2
    simp [charListLt] at h2
  | a :: as, b :: bs, c :: cs => by
    simp only [charListLt]
    intro h1 h2
    by_cases hab : a < b
    · by_cases hbc : b < c
      · rw [if_pos (lt_trans hab hbc)]
      · by_cases hcb : c < b
        · rw [if_neg hbc, if_pos hcb] at h2
          exact absurd h2 (by simp)
        · have hbc2 : b = c := le_antisymm (le_of_not_lt hcb) (le_of_not_lt hbc)
          subst hbc2
          rw [if_pos hab]
    · by_cases hba : b < a
      · rw [if_neg hab, if_pos hba] at h1
        exact absurd h1 (by simp)
      · have hab2 : a = b := le_antisymm (le_of_not_lt hba) (le_of_not_lt hab)
        subst hab2
        rw [if_neg hab, if_neg hba] at h1
        by_cases hbc : a < c
        · rw [if_pos hbc]
        · by_cases hcb : c < a
          · rw [if_neg hbc, if_pos hcb] at h2
            exact absurd h2 (by simp)
          · rw [if_neg hbc, if_neg hcb] at h2 ⊢
            exact charListLt_trans as bs cs h1 h2

theorem eq_of_not_charListLt : ∀ (a b : List Char),
    charListLt a b = false → charListLt b a = false → a = b
  | [], [] => by simp
  | [], _ :: _ => by simp [charListLt]
  | _ :: _, [] => by simp [charListLt]
  | a :: as, b :: bs => by
    simp only [charListLt]
    intro h1 h2
    by_cases hab : a < b
    · rw [if_pos hab] at h1
      exact absurd h1 (by simp)
    · by_cases hba : b < a
      · rw [if_pos hba] at h2
        exact absurd h2 (by simp)
      · have hab2 : a = b := le_antisymm (le_of_not_lt hba) (le_of_not_lt hab)
        subst hab2
        rw [if_neg hab, if_neg hba] at h1 h2
        rw [eq_of_not_charListLt as bs h1 h2]

instance : IsTotal Entry entryLe := by
  constructor
  intro x y
  unfold entryLe nameLe
  cases h : charListLt (entryName y).data (entryName x).data
  · left
    rfl
  · right
    rw [charListLt_asymm _ _ h]
    rfl

instance : IsTrans Entry entryLe := by
  constructor
  intro x y z h1 h2
  unfold entryLe nameLe at h1 h2 ⊢
  rw [Bool.not_eq_true'] at h1 h2 ⊢
  by_contra hzx
  rw [Bool.not_eq_false] at hzx
  cases htu : charListLt (entryName y).data (entryName z).data
  · have hyz : (entryName y).data = (entryName z).data :=
      eq_of_not_charListLt _ _ htu h2
    rw [← hyz] at hzx
    rw [hzx] at h1
    exact absurd h1 (by simp)
  · have := charListLt_trans _ _ _ htu hzx
    rw [this] at h1
    exact absurd h1 (by simp)

theorem mem_sortEntries {x : Entry} {l : List Entry} : x ∈ sortEntries l ↔ x ∈ l :=
  (List.perm_insertionSort entryLe l).mem_iff

theorem filter_orderedInsert (p : Entry → Bool) (x : Entry) :
    ∀ (m : List Entry), List.Sorted entryLe m →
      (List.orderedInsert entryLe x m).filter p =
        if p x then List.orderedInsert entryLe x (m.filter p) else m.filter p
  | [], _ => by
    by_cases hp : p x <;> simp [List.orderedInsert, List.filter_cons, hp]
  | b :: m, hs => by
    by_cases hxb : entryLe x b
    · by_cases hpx : p x
      · by_cases hpb : p b
        · simp [List.orderedInsert, hxb, List.filter_cons, hpx, hpb]
        · rw [List.orderedInsert_of_le _ _ hxb, List.filter_cons_of_pos hpx,
            List.filter_cons_of_neg hpb, if_pos hpx]
          cases hf : m.filter p with
          | nil => simp [List.orderedInsert]
          | cons z zs =>
            have hz : z ∈ m.filter p := by rw [hf]; exact List.mem_cons_self z zs
            have hzm : z ∈ m := List.mem_of_mem_filter hz
            have hbz : entryLe b z := List.rel_of_sorted_cons hs z hzm
            have hxz : entryLe x z := IsTrans.trans x b z hxb hbz
            rw [List.orderedInsert_of_le _ _ hxz]
      · rw [List.orderedInsert_of_le _ _ hxb, List.filter_cons_of_neg hpx, if_neg hpx]
    · rw [show List.orderedInsert entryLe x (b :: m) = b :: List.orderedInsert entryLe x m from
        if_neg hxb]
      have hsm : List.Sorted entryLe m := hs.of_cons
      by_cases hpb : p b
      · rw [List.filter_cons_of_pos hpb, filter_orderedInsert p x m hsm,
          List.filter_cons_of_pos hpb]
        by_cases hpx : p x
        · rw [if_pos hpx, if_pos hpx,
            show List.orderedInsert entryLe x (b :: m.filter p) =
              b :: List.orderedInsert entryLe x (m.filter p) from if_neg hxb]
        · rw [if_neg hpx, if_neg hpx]
      · rw [List.filter_cons_of_neg hpb, filter_orderedInsert p x m hsm,
          List.filter_cons_of_neg hpb]

theorem filter_sortEntries (p : Entry → Bool) :
    ∀ (l : List Entry), (sortEntries l).filter p = sortEntries (l.filter p)
  | [] => rfl
  | a :: l => by
    show (List.orderedInsert entryLe a (sortEntries l)).filter p = _
    rw [filter_orderedInsert p a (sortEntries l) (List.sorted_insertionSort entryLe l),
      filter_sortEntries p l]
    by_cases hpa : p a
    · rw [if_pos hpa, List.filter_cons_of_pos hpa]
      rfl
    · rw [if_neg hpa, List.filter_cons_of_neg hpa]

/-! ## Fuel lemmas -/

theorem entryFuel_pos : ∀ e : Entry, 1 ≤ entryFuel e
  | .file _ _ => le_refl 1
  | .errDir _ _ => le_refl 1
  | .dir _ children => by simp [entryFuel]

theorem entryFuel_dir (n : String) (children : List Entry) :
    entryFuel (.dir n children) = 1 + entriesFuel children := by
  simp [entryFuel]

theorem entriesFuel_append : ∀ l₁ l₂ : List Entry,
    entriesFuel (l₁ ++ l₂) = entriesFuel l₁ + entriesFuel l₂
  | [], l₂ => by simp [entriesFuel]
  | e :: rest, l₂ => by
    show entriesFuel (e :: (rest ++ l₂)) = _
    simp only [entriesFuel]
    rw [entriesFuel_append rest l₂]
    omega

theorem entryFuel_le_of_mem : ∀ {e : Entry} {l : List Entry}, e ∈ l →
    entryFuel e ≤ entriesFuel l := by
  intro e l h
  induction l with
  | nil => cases h
  | cons x rest ih =>
    rcases List.mem_cons.mp h with rfl | hm
    · simp only [entriesFuel]; omega
    · have := ih hm
      simp only [entriesFuel]; omega

/-! ## Basic traversal lemmas -/

theorem processDirF_depth_stop {f : Nat} {a : Analyzer} {root : String}
    {comps : List String} {e : Entry} {depth : Nat} {st : Stats}
    (h : depthExceeded a depth = true) :
    processDirF f a root comps e depth st = ([], st) := by
  cases f with
  | zero => rfl
  | succ f => simp [processDirF, h]

theorem processDirF_budget_stop {f : Nat} {a : Analyzer} {root : String}
    {comps : List String} {e : Entry} {depth : Nat} {st : Stats}
    (h : a.max_files ≤ st.files_analyzed) :
    processDirF f a root comps e depth st = ([], st) := by
  cases f with
  | zero => rfl
  | succ f =>
    by_cases hd : depthExceeded a depth
    · simp [processDirF, hd]
    · simp [processDirF, hd, h]

theorem addToTreeF_depth_stop {f : Nat} {a : Analyzer} {e : Entry}
    {pfx : String} {depth : Nat} (h : depthExceeded a depth = true) :
    addToTreeF f a e pfx depth = [] := by
  cases f with
  | zero => rfl
  | succ f => simp [addToTreeF, h]

/-! ## Loop congruence and fuel irrelevance -/

theorem collectLoopGen_congr
    {r1 r2 : List String → Entry → Nat → Stats → List (String × String) × Stats}
    (a : Analyzer) (root : String) (comps : List String) (depth : Nat) :
    ∀ (l : List Entry) (st : Stats),
      (∀ e ∈ l, ∀ comps2 st2, r1 comps2 e (depth + 1) st2 = r2 comps2 e (depth + 1) st2) →
      collectLoopGen r1 a root comps depth l st = collectLoopGen r2 a root comps depth l st
  | [], _, _ => rfl
  | e :: rest, st, H => by
    have Hrest : ∀ x ∈ rest, ∀ comps2 st2,
        r1 comps2 x (depth + 1) st2 = r2 comps2 x (depth + 1) st2 :=
      fun x hx => H x (List.mem_cons_of_mem e hx)
    by_cases hex : a.exclude_dirs.contains (entryName e)
    · simp only [collectLoopGen, hex, if_true]
      exact collectLoopGen_congr a root comps depth rest st Hrest
    · cases e with
      | file n fd =>
        simp only [collectLoopGen, hex, Bool.false_eq_true, if_false]
        rw [collectLoopGen_congr a root comps depth rest _ Hrest]
      | dir n children =>
        simp only [collectLoopGen, hex, Bool.false_eq_true, if_false]
        rw [H _ (List.mem_cons_self _ _) (comps ++ [n]) st,
          collectLoopGen_congr a root comps depth rest _ Hrest]
      | errDir n msg =>
        simp only [collectLoopGen, hex, Bool.false_eq_true, if_false]
        rw [H _ (List.mem_cons_self _ _) (comps ++ [n]) st,
          collectLoopGen_congr a root comps depth rest _ Hrest]

theorem processDirF_mono (f : Nat) : ∀ (g : Nat) (a : Analyzer) (root : String)
    (comps : List String) (e : Entry) (depth : Nat) (st : Stats),
    entryFuel e ≤ f → entryFuel e ≤ g →
    processDirF f a root comps e depth st = processDirF g a root comps e depth st := by
  induction f using Nat.strong_induction_on with
  | _ f IH =>
    intro g a root comps e depth st hf hg
    match f, g with
    | 0, _ => exact absurd hf (by have := entryFuel_pos e; omega)
    | _ + 1, 0 => exact absurd hg (by have := entryFuel_pos e; omega)
    | f' + 1, g' + 1 =>
      by_cases h1 : depthExceeded a depth
      · rw [processDirF_depth_stop h1, processDirF_depth_stop h1]
      · by_cases h2 : a.max_files ≤ st.files_analyzed
        · rw [processDirF_budget_stop h2, processDirF_budget_stop h2]
        · by_cases h3 : MAX_TOTAL_SIZE_BYTES < st.total_size
          · simp [processDirF, h1, h2, h3]
          · cases e with
            | file n fd => simp [processDirF, h1, h2, h3]
            | errDir n msg => simp [processDirF, h1, h2, h3]
            | dir n children =>
              simp only [processDirF, h1, Bool.false_eq_true, if_false, h2, h3]
              apply collectLoopGen_congr
              intro e2 he2 comps2 st2
              have he2m : e2 ∈ children := mem_sortEntries.mp he2
              have hle : entryFuel e2 ≤ entriesFuel children := entryFuel_le_of_mem he2m
              have hfe : entryFuel (Entry.dir n children) = 1 + entriesFuel children :=
                entryFuel_dir n children
              exact IH f' (by omega) g' a root comps2 e2 (depth + 1) st2
                (by omega) (by omega)

theorem treeLoopGen_congr {r1 r2 : Entry → String → Nat → List String}
    (pfx : String) (depth : Nat) :
    ∀ (l : List Entry),
      (∀ e ∈ l, ∀ pfx2, r1 e pfx2 (depth + 1) = r2 e pfx2 (depth + 1)) →
      treeLoopGen r1 pfx depth l = treeLoopGen r2 pfx depth l
  | [], _ => rfl
  | e :: rest, H => by
    have Hrest : ∀ x ∈ rest, ∀ pfx2, r1 x pfx2 (depth + 1) = r2 x pfx2 (depth + 1) :=
      fun x hx => H x (List.mem_cons_of_mem e hx)
    simp only [treeLoopGen]
    rw [treeLoopGen_congr pfx depth rest Hrest]
    by_cases hd : isDirE e
    · rw [if_pos hd, if_pos hd, H e (List.mem_cons_self _ _)]
    · rw [if_neg hd, if_neg hd]

theorem addToTreeF_mono (f : Nat) : ∀ (g : Nat) (a : Analyzer) (e : Entry)
    (pfx : String) (depth : Nat),
    entryFuel e ≤ f → entryFuel e ≤ g →
    addToTreeF f a e pfx depth = addToTreeF g a e pfx depth := by
  induction f using Nat.strong_induction_on with
  | _ f IH =>
    intro g a e pfx depth hf hg
    match f, g with
    | 0, _ => exact absurd hf (by have := entryFuel_pos e; omega)
    | _ + 1, 0 => exact absurd hg (by have := entryFuel_pos e; omega)
    | f' + 1, g' + 1 =>
      by_cases h1 : depthExceeded a depth
      · rw [addToTreeF_depth_stop h1, addToTreeF_depth_stop h1]
      · cases e with
        | file n fd => simp [addToTreeF, h1]
        | errDir n msg => simp [addToTreeF, h1]
        | dir n children =>
          simp only [addToTreeF, h1, Bool.false_eq_true, if_false]
          apply treeLoopGen_congr
          intro e2 he2 pfx2
          have he2m : e2 ∈ children :=
            mem_sortEntries.mp (List.mem_of_mem_filter he2)
          have hle : entryFuel e2 ≤ entriesFuel children := entryFuel_le_of_mem he2m
          have hfe : entryFuel (Entry.dir n children) = 1 + entriesFuel children :=
            entryFuel_dir n children
          exact IH f' (by omega) g' a e2 pfx2 (depth + 1) (by omega) (by omega)

/-! ## The loop skips entries named in `exclude_dirs` -/

theorem collectLoopGen_filter
    (recur : List String → Entry → Nat → Stats → List (String × String) × Stats)
    (a : Analyzer) (root : String) (comps : List String) (depth : Nat) :
    ∀ (l : List Entry) (st : Stats),
      collectLoopGen recur a root comps depth l st =
        collectLoopGen recur a root comps depth
          (l.filter (fun e => !(a.exclude_dirs.contains (entryName e)))) st
  | [], _ => rfl
  | e :: rest, st => by
    by_cases hex : a.exclude_dirs.contains (entryName e)
    · rw [List.filter_cons_of_neg (by simpa using hex)]
      simp only [collectLoopGen, hex, if_true]
      exact collectLoopGen_filter recur a root comps depth rest st
    · rw [List.filter_cons_of_pos (by simpa using hex)]
      cases e with
      | file n fd =>
        simp only [collectLoopGen, hex, Bool.false_eq_true, if_false]
        rw [collectLoopGen_filter recur a root comps depth rest]
      | dir n children =>
        simp only [collectLoopGen, hex, Bool.false_eq_true, if_false]
        rw [collectLoopGen_filter recur a root comps depth rest]
      | errDir n msg =>
        simp only [collectLoopGen, hex, Bool.false_eq_true, if_false]
        rw [collectLoopGen_filter recur a root comps depth rest]

/-! ## Entries named in `exclude_dirs` are invisible to the traversal -/

theorem processDirF_skip_named {a : Analyzer} {x : Entry}
    (hx : a.exclude_dirs.contains (entryName x) = true) :
    ∀ (f : Nat) (root : String) (comps : List String) (pn : String)
      (l₁ l₂ : List Entry) (depth : Nat) (st : Stats),
      processDirF f a root comps (.dir pn (l₁ ++ x :: l₂)) depth st =
        processDirF f a root comps (.dir pn (l₁ ++ l₂)) depth st := by
  intro f root comps pn l₁ l₂ depth st
  cases f with
  | zero => rfl
  | succ f =>
    by_cases h1 : depthExceeded a depth
    · rw [processDirF_depth_stop h1, processDirF_depth_stop h1]
    · by_cases h2 : a.max_files ≤ st.files_analyzed
      · rw [processDirF_budget_stop h2, processDirF_budget_stop h2]
      · by_cases h3 : MAX_TOTAL_SIZE_BYTES < st.total_size
        · simp [processDirF, h1, h2, h3]
        · simp only [processDirF, h1, Bool.false_eq_true, if_false, h2, h3]
          have hfl : (l₁ ++ x :: l₂).filter
              (fun e => !(a.exclude_dirs.contains (entryName e))) =
              (l₁ ++ l₂).filter (fun e => !(a.exclude_dirs.contains (entryName e))) := by
            simp only [List.filter_append]
            rw [List.filter_cons_of_neg (by simpa using hx)]
          rw [collectLoopGen_filter _ a root comps depth (sortEntries (l₁ ++ x :: l₂)) st,
            filter_sortEntries, hfl, ← filter_sortEntries,
            ← collectLoopGen_filter _ a root comps depth (sortEntries (l₁ ++ l₂)) st]

theorem addToTreeF_skip_named {a : Analyzer} {x : Entry}
    (hx : a.exclude_dirs.contains (entryName x) = true) :
    ∀ (f : Nat) (pn : String) (l₁ l₂ : List Entry) (pfx : String) (depth : Nat),
      addToTreeF f a (.dir pn (l₁ ++ x :: l₂)) pfx depth =
        addToTreeF f a (.dir pn (l₁ ++ l₂)) pfx depth := by
  intro f pn l₁ l₂ pfx depth
  cases f with
  | zero => rfl
  | succ f =>
    by_cases h1 : depthExceeded a depth
    · rw [addToTreeF_depth_stop h1, addToTreeF_depth_stop h1]
    · simp only [addToTreeF, h1, Bool.false_eq_true, if_false]
      rw [filter_sortEntries, filter_sortEntries]
      have hfl : (l₁ ++ x :: l₂).filter
          (fun e => !(a.exclude_dirs.contains (entryName e))) =
          (l₁ ++ l₂).filter (fun e => !(a.exclude_dirs.contains (entryName e))) := by
        simp only [List.filter_append]
        rw [List.filter_cons_of_neg (by simpa using hx)]
      rw [hfl]

theorem entryFuel_sublist_le (pn : String) (x : Entry) (l₁ l₂ : List Entry) :
    entryFuel (.dir pn (l₁ ++ l₂)) ≤ entryFuel (.dir pn (l₁ ++ x :: l₂)) := by
  rw [entryFuel_dir, entryFuel_dir, entriesFuel_append, entriesFuel_append]
  have hx := entryFuel_pos x
  simp only [entriesFuel]
  omega

/-- C6: traversal never descends into a directory whose name is in
`excludedDirectoryNames`, regardless of depth: wherever a directory entry
named `n` with `n ∈ exclude_dirs` appears in a listing (any fuel, any
path, any depth — first conjunct), processing that listing behaves exactly
as if the entry and everything beneath it (the arbitrary `cs`) were absent;
consequently `collect_code_files` (second conjunct) and the tree rendering
(third conjunct) are entirely independent of it, so no file beneath it can
appear in the collected sequence, the skip record, or the rendered tree. -/
theorem c6_excluded_dir_invariant
    (a : Analyzer) (root : String) (pn n : String) (cs l₁ l₂ : List Entry)
    (st : Stats) (hn : a.exclude_dirs.contains n = true) :
    (∀ (f : Nat) (comps : List String) (depth : Nat) (st2 : Stats),
       processDirF f a root comps (.dir pn (l₁ ++ .dir n cs :: l₂)) depth st2 =
         processDirF f a root comps (.dir pn (l₁ ++ l₂)) depth st2) ∧
    collect_code_files a root (.dir pn (l₁ ++ .dir n cs :: l₂)) st =
      collect_code_files a root (.dir pn (l₁ ++ l₂)) st ∧
    generate_tree a (.dir pn (l₁ ++ .dir n cs :: l₂)) =
      generate_tree a (.dir pn (l₁ ++ l₂)) := by
  have hx : a.exclude_dirs.contains (entryName (.dir n cs)) = true := hn
  have hle := entryFuel_sublist_le pn (.dir n cs) l₁ l₂
  refine ⟨?_, ?_, ?_⟩
  · intro f comps depth st2
    exact processDirF_skip_named hx f root comps pn l₁ l₂ depth st2
  · unfold collect_code_files
    rw [processDirF_skip_named hx]
    exact processDirF_mono _ _ a root [] _ 0 _ hle (le_refl _)
  · unfold generate_tree treeRootLines
    show String.intercalate "\n" (pn :: _) = String.intercalate "\n" (pn :: _)
    rw [addToTreeF_skip_named hx]
    rw [addToTreeF_mono _ _ a _ "" 0 hle (le_refl _)]

/-- Witness for C6 at a concrete tree: an excluded `node_modules` directory
with a Python file beneath it contributes nothing to collection or tree,
also when its parent listing is processed at depth 1. -/
theorem c6_excluded_dir_invariant_witness :
    processDirF 3 defaultAnalyzer "root" ["sub"]
        (.dir "proj" ([] ++ .dir "node_modules" [.file "x.py" (asciiFile "a\nb\nc\nd\ne")] ::
          [.file "a.py" (asciiFile "a\nb\nc\nd\ne")])) 1 initStats =
      processDirF 3 defaultAnalyzer "root" ["sub"]
        (.dir "proj" ([] ++ [.file "a.py" (asciiFile "a\nb\nc\nd\ne")])) 1 initStats ∧
    collect_code_files defaultAnalyzer "root"
        (.dir "proj" ([] ++ .dir "node_modules" [.file "x.py" (asciiFile "a\nb\nc\nd\ne")] ::
          [.file "a.py" (asciiFile "a\nb\nc\nd\ne")])) initStats =
      collect_code_files defaultAnalyzer "root"
        (.dir "proj" ([] ++ [.file "a.py" (asciiFile "a\nb\nc\nd\ne")])) initStats ∧
    generate_tree defaultAnalyzer
        (.dir "proj" ([] ++ .dir "node_modules" [.file "x.py" (asciiFile "a\nb\nc\nd\ne")] ::
          [.file "a.py" (asciiFile "a\nb\nc\nd\ne")])) =
      generate_tree defaultAnalyzer
        (.dir "proj" ([] ++ [.file "a.py" (asciiFile "a\nb\nc\nd\ne")])) :=
  have h := c6_excluded_dir_invariant defaultAnalyzer "root" "proj" "node_modules"
    [.file "x.py" (asciiFile "a\nb\nc\nd\ne")] []
    [.file "a.py" (asciiFile "a\nb\nc\nd\ne")] initStats (by decide)
  ⟨h.1 3 ["sub"] 1 initStats, h.2.1, h.2.2⟩

/-- C10: a plain file whose basename is in `exclude_dirs` is skipped
silently by `collect_code_files`, at any depth: wherever the file appears
in a listing, processing that listing (any fuel, path, depth — first
conjunct) and the whole collection run (second conjunct) produce results —
collected sequence, counters and skip record alike — equal to the run on
the tree without that file, so it is never collected and no skip entry is
recorded for it. -/
theorem c10_excluded_named_file
    (a : Analyzer) (root : String) (pn n : String) (fd : FileData)
    (l₁ l₂ : List Entry) (st : Stats) (hn : a.exclude_dirs.contains n = true) :
    (∀ (f : Nat) (comps : List String) (depth : Nat) (st2 : Stats),
       processDirF f a root comps (.dir pn (l₁ ++ .file n fd :: l₂)) depth st2 =
         processDirF f a root comps (.dir pn (l₁ ++ l₂)) depth st2) ∧
    collect_code_files a root (.dir pn (l₁ ++ .file n fd :: l₂)) st =
      collect_code_files a root (.dir pn (l₁ ++ l₂)) st := by
  have hx : a.exclude_dirs.contains (entryName (.file n fd)) = true := hn
  have hle := entryFuel_sublist_le pn (.file n fd) l₁ l₂
  constructor
  · intro f comps depth st2
    exact processDirF_skip_named hx f root comps pn l₁ l₂ depth st2
  · unfold collect_code_files
    rw [processDirF_skip_named hx]
    exact processDirF_mono _ _ a root [] _ 0 _ hle (le_refl _)

/-- Witness for C10 at a concrete tree: a 5-line ASCII file named `build`
is neither collected nor recorded as skipped, also at depth 1. -/
theorem c10_excluded_named_file_witness :
    processDirF 3 defaultAnalyzer "root" ["sub"]
        (.dir "proj" ([] ++ .file "build" (asciiFile "a\nb\nc\nd\ne") ::
          [.file "a.py" (asciiFile "a\nb\nc\nd\ne")])) 1 initStats =
      processDirF 3 defaultAnalyzer "root" ["sub"]
        (.dir "proj" ([] ++ [.file "a.py" (asciiFile "a\nb\nc\nd\ne")])) 1 initStats ∧
    collect_code_files defaultAnalyzer "root"
        (.dir "proj" ([] ++ .file "build" (asciiFile "a\nb\nc\nd\ne") ::
          [.file "a.py" (asciiFile "a\nb\nc\nd\ne")])) initStats =
      collect_code_files defaultAnalyzer "root"
        (.dir "proj" ([] ++ [.file "a.py" (asciiFile "a\nb\nc\nd\ne")])) initStats :=
  have h := c10_excluded_named_file defaultAnalyzer "root" "proj" "build"
    (asciiFile "a\nb\nc\nd\ne") [] [.file "a.py" (asciiFile "a\nb\nc\nd\ne")]
    initStats (by decide)
  ⟨h.1 3 ["sub"] 1 initStats, h.2⟩

/-! ## Concrete data for counterexamples and witnesses -/

/-- A five-line ASCII text, long enough to pass `MIN_LINES_PER_FILE`. -/
def fiveLines : String := "a\nb\nc\nd\ne"

/-- Fifty one-character lines: the spec's `config.json with 50 lines` example. -/
def json50 : String := String.intercalate "\n" (List.replicate 50 "x")

/-- A root directory holding one eligible Python file. -/
def pyTree : Entry := .dir "proj" [.file "a.py" (asciiFile fiveLines)]

/-- A file whose probe shows the UTF-8 bytes of `é` and whose text read
raises `UnicodeDecodeError`. -/
def latinFd : FileData :=
  { size := 2, bytes := some [195, 169], text := .error (.decodeErr "invalid start byte") }

/-- A file no read succeeds on. -/
def unreadableFd : FileData :=
  { size := 5, bytes := none, text := .error .permErr }

/-- A small plain-ASCII file. -/
def hiFd : FileData := { size := 3, bytes := some [104, 105, 10], text := .ok "hi\n" }

set_option maxRecDepth 100000

/-- C1: the claim says a file whose basename is in the sensitive set (such as
`config.json`) never appears in the collected output.  In the packaged
analyzer this fails: `__init__` never merges `SENSITIVE_FILES` (or
`DEFAULT_EXCLUDE_FILES`) into `exclude_files`, so a 50-line ASCII
`config.json` is classified by its `.json` extension and collected with its
content — contradicting the constants module's own statement that these
files "will always be excluded". -/
theorem c1_sensitive_file_collected :
    SENSITIVE_FILES.contains "config.json" = true ∧
    DEFAULT_EXCLUDE_FILES.contains "config.json" = true ∧
    (collect_code_files defaultAnalyzer "root"
      (.dir "proj" [.file "config.json" (asciiFile json50)]) initStats).1 =
      [("config.json", json50)] :=
  ⟨by decide, by decide, by decide⟩

/-- C2: the claim says two runs of `collect_code_files` over an unchanged
tree leave identical `totalContentBytes`.  The collected sequences are
byte-identical, but `collect_code_files` resets `files_analyzed` and not
`total_size`, so after the second run the counter has doubled (18 instead
of 9 here), contradicting the claim and the spec's own invariant
`totalContentBytes == sum of content lengths in collected`. -/
theorem c2_total_size_not_idempotent :
    (collect_code_files defaultAnalyzer "root" pyTree
        (collect_code_files defaultAnalyzer "root" pyTree initStats).2).1 =
      (collect_code_files defaultAnalyzer "root" pyTree initStats).1 ∧
    (collect_code_files defaultAnalyzer "root" pyTree initStats).2.total_size = 9 ∧
    (collect_code_files defaultAnalyzer "root" pyTree
        (collect_code_files defaultAnalyzer "root" pyTree initStats).2).2.total_size = 18 :=
  ⟨by decide, by decide, by decide⟩

/-- C3 counterexample: with `max_files = 1` and two eligible files in one
directory, `collect_code_files` returns two collected files — the budget
check only runs at the start of each directory, never between files of the
same directory, so `|collected| <= N` is false. -/
theorem c3_budget_counterexample :
    (mkAnalyzer [] [] (1024 * 1024) 1 none 500).max_files = 1 ∧
    (collect_code_files (mkAnalyzer [] [] (1024 * 1024) 1 none 500) "root"
      (.dir "proj" [.file "a.py" (asciiFile fiveLines), .file "b.py" (asciiFile fiveLines)])
      initStats).1.length = 2 :=
  ⟨rfl, by decide⟩

/-- C3 amended: the file-count budget is enforced at directory granularity
only.  Whenever `files_analyzed >= max_files` holds on entry to a directory,
processing it is a complete no-op (nothing below it is collected, recorded,
or descended into) — so once the budget is reached no further directory is
entered; but within a directory whose listing is already being iterated all
eligible files are still collected, so `|collected|` can exceed the budget
(see the counterexample).  With `max_files = 0` the whole collection run
returns nothing. -/
theorem c3_budget_amended :
    (∀ (f : Nat) (a : Analyzer) (root : String) (comps : List String) (e : Entry)
       (depth : Nat) (st : Stats), a.max_files ≤ st.files_analyzed →
       processDirF f a root comps e depth st = ([], st)) ∧
    (∀ (a : Analyzer) (root : String) (e : Entry) (st : Stats), a.max_files = 0 →
       collect_code_files a root e st = ([], { st with files_analyzed := 0 })) := by
  constructor
  · intro f a root comps e depth st h
    exact processDirF_budget_stop h
  · intro a root e st h
    unfold collect_code_files
    exact processDirF_budget_stop (by simp [h])

/-- Witness for C3 amended at concrete inputs. -/
theorem c3_budget_amended_witness :
    processDirF 3 defaultAnalyzer "root" [] pyTree 0 ⟨1000, 0, []⟩ =
      ([], ⟨1000, 0, []⟩) ∧
    collect_code_files (mkAnalyzer [] [] (1024 * 1024) 0 none 500) "root" pyTree initStats =
      ([], { initStats with files_analyzed := 0 }) :=
  ⟨c3_budget_amended.1 3 defaultAnalyzer "root" [] pyTree 0 ⟨1000, 0, []⟩ (by decide),
   c3_budget_amended.2 (mkAnalyzer [] [] (1024 * 1024) 0 none 500) "root" pyTree initStats rfl⟩

/-- C7: the claim says the text sniff returns true without reading whenever
the extension is in `knownTextExtensions`.  The packaged analyzer's
`is_text_file` has no extension fast path (`KNOWN_TEXT_EXTENSIONS` is never
imported): it always probes up to 1024 bytes, so a `.md` file whose probe
holds a byte ≥ 128 (here the UTF-8 encoding of `é`) or whose read fails is
classified as binary.  The probe rule itself (all bytes < 128, failure →
binary) matches the claim, as the last conjunct shows on ASCII bytes. -/
theorem c7_text_sniff_no_fast_path :
    KNOWN_TEXT_EXTENSIONS.contains ".md" = true ∧
    is_text_file latinFd = false ∧
    is_text_file unreadableFd = false ∧
    is_text_file hiFd = true :=
  ⟨by decide, by decide, by decide, by decide⟩

/-- C8 counterexample: the claim says a file whose basename is in the
excluded list gets a skip record with reason "excluded by policy".  In the
code the `exclude_files` branch of `is_code_file` returns silently: here a
5-line ASCII `notes.txt` in the caller's exclude list produces an empty
collected list AND an empty skip record — no reason is recorded at all
(the string "excluded by policy" appears nowhere in the analyzer). -/
theorem c8_policy_skip_counterexample :
    (mkAnalyzer [] ["notes.txt"]).exclude_files.contains "notes.txt" = true ∧
    collect_code_files (mkAnalyzer [] ["notes.txt"]) "root"
      (.dir "proj" [.file "notes.txt" (asciiFile fiveLines)]) initStats =
      ([], ⟨0, 0, []⟩) :=
  ⟨by decide, by decide⟩

/-- C8 amended: exclusion by basename (`exclude_files`; the sensitive names
are never merged in, see C1) is silent — `is_code_file` returns false and
leaves the skip record unchanged; there is no "excluded by policy" reason.
The recorded part of the taxonomy starts at the text sniff: a file that
fails it is recorded with reason "binary file". -/
theorem c8_skip_taxonomy_amended :
    (∀ (a : Analyzer) (path n : String) (fd : FileData) (sk : List (String × String)),
       a.exclude_files.contains n = true → is_code_file a path n fd sk = (false, sk)) ∧
    (∀ (a : Analyzer) (path n : String) (fd : FileData) (sk : List (String × String)),
       a.exclude_files.contains n = false → is_text_file fd = false →
       is_code_file a path n fd sk = (false, dictSet sk path "binary file")) := by
  constructor
  · intro a path n fd sk h
    unfold is_code_file
    rw [if_pos h]
  · intro a path n fd sk h1 h2
    unfold is_code_file
    rw [if_neg (by rw [h1]; decide), if_pos (by rw [h2]; rfl)]

/-- Witness for C8 amended at concrete inputs. -/
theorem c8_skip_taxonomy_amended_witness :
    is_code_file (mkAnalyzer [] ["notes.txt"]) "root/notes.txt" "notes.txt"
        (asciiFile fiveLines) [] = (false, []) ∧
    is_code_file defaultAnalyzer "root/img.py" "img.py" latinFd [] =
      (false, dictSet [] "root/img.py" "binary file") :=
  ⟨c8_skip_taxonomy_amended.1 (mkAnalyzer [] ["notes.txt"]) "root/notes.txt" "notes.txt"
      (asciiFile fiveLines) [] (by decide),
   c8_skip_taxonomy_amended.2 defaultAnalyzer "root/img.py" "img.py" latinFd []
      (by decide) (by decide)⟩

/-! ## Depth-zero behaviour -/

theorem depthExceeded_zero (a : Analyzer) : depthExceeded a 0 = false := by
  unfold depthExceeded
  cases a.max_depth with
  | none => rfl
  | some m => simp

theorem depthExceeded_one_of_zero {a : Analyzer} (hd : a.max_depth = some 0) :
    depthExceeded a 1 = true := by
  unfold depthExceeded
  rw [hd]
  rfl

theorem intercalate_single (s x : String) : String.intercalate s [x] = x := rfl

theorem handleFile_out (a : Analyzer) (root : String) (comps : List String)
    (n : String) (fd : FileData) (st : Stats) :
    (handleFile a root comps n fd st).1 = [] ∨
    ∃ c, (handleFile a root comps n fd st).1 =
      [(String.intercalate "/" (comps ++ [n]), c)] := by
  simp only [handleFile]
  split
  · exact Or.inl rfl
  · split
    · split
      · split
        · exact Or.inl rfl
        · exact Or.inr ⟨_, rfl⟩
      · exact Or.inl rfl
      · exact Or.inl rfl
      · exact Or.inl rfl
    · exact Or.inl rfl

theorem collectLoopGen_mem
    {recur : List String → Entry → Nat → Stats → List (String × String) × Stats}
    (a : Analyzer) (root : String) (comps : List String) (depth : Nat)
    (H : ∀ comps2 e2 st2, (recur comps2 e2 (depth + 1) st2).1 = []) :
    ∀ (l : List Entry) (st : Stats) (x : String × String),
      x ∈ (collectLoopGen recur a root comps depth l st).1 →
      ∃ n fd, Entry.file n fd ∈ l ∧ x.1 = String.intercalate "/" (comps ++ [n])
  | [], _, x, hx => absurd hx (by simp [collectLoopGen])
  | e :: rest, st, x, hx => by
    by_cases hex : a.exclude_dirs.contains (entryName e)
    · rw [show collectLoopGen recur a root comps depth (e :: rest) st =
          collectLoopGen recur a root comps depth rest st from by
            simp only [collectLoopGen, hex, if_true]] at hx
      obtain ⟨n, fd, hm, he⟩ := collectLoopGen_mem a root comps depth H rest st x hx
      exact ⟨n, fd, List.mem_cons_of_mem e hm, he⟩
    · cases e with
      | file n fd =>
        simp only [collectLoopGen, hex, Bool.false_eq_true, if_false] at hx
        rcases List.mem_append.mp hx with h1 | h2
        · rcases handleFile_out a root comps n fd st with hout | ⟨c, hout⟩
          · rw [hout] at h1
            cases h1
          · rw [hout] at h1
            rcases List.mem_singleton.mp h1 with rfl
            exact ⟨n, fd, List.mem_cons_self _ _, rfl⟩
        · obtain ⟨n2, fd2, hm, he⟩ := collectLoopGen_mem a root comps depth H rest _ x h2
          exact ⟨n2, fd2, List.mem_cons_of_mem _ hm, he⟩
      | dir n children =>
        simp only [collectLoopGen, hex, Bool.false_eq_true, if_false] at hx
        rw [H (comps ++ [n]) (.dir n children) st] at hx
        rcases List.mem_append.mp hx with h1 | h2
        · cases h1
        · obtain ⟨n2, fd2, hm, he⟩ := collectLoopGen_mem a root comps depth H rest _ x h2
          exact ⟨n2, fd2, List.mem_cons_of_mem _ hm, he⟩
      | errDir n msg =>
        simp only [collectLoopGen, hex, Bool.false_eq_true, if_false] at hx
        rw [H (comps ++ [n]) (.errDir n msg) st] at hx
        rcases List.mem_append.mp hx with h1 | h2
        · cases h1
        · obtain ⟨n2, fd2, hm, he⟩ := collectLoopGen_mem a root comps depth H rest _ x h2
          exact ⟨n2, fd2, List.mem_cons_of_mem _ hm, he⟩

theorem processDirF_depth0_mem {a : Analyzer} (hd : a.max_depth = some 0)
    (f : Nat) (root rn : String) (children : List Entry) (st : Stats)
    (x : String × String)
    (hx : x ∈ (processDirF f a root [] (.dir rn children) 0 st).1) :
    ∃ n fd, Entry.file n fd ∈ children ∧ x.1 = n := by
  cases f with
  | zero => cases hx
  | succ f =>
    simp only [processDirF, depthExceeded_zero, Bool.false_eq_true, if_false] at hx
    by_cases h2 : a.max_files ≤ st.files_analyzed
    · rw [if_pos h2] at hx
      cases hx
    · rw [if_neg h2] at hx
      by_cases h3 : MAX_TOTAL_SIZE_BYTES < st.total_size
      · rw [if_pos h3] at hx
        cases hx
      · rw [if_neg h3] at hx
        have H : ∀ comps2 e2 st2,
            (processDirF f a root comps2 e2 (0 + 1) st2).1 = [] := by
          intro comps2 e2 st2
          rw [processDirF_depth_stop (depthExceeded_one_of_zero hd)]
        obtain ⟨n, fd, hm, he⟩ :=
          collectLoopGen_mem a root [] 0 H (sortEntries children) st x hx
        exact ⟨n, fd, mem_sortEntries.mp hm, by rw [he]; rfl⟩

theorem treeLoopGen_mem {recur : Entry → String → Nat → List String}
    (pfx : String) (depth : Nat)
    (H : ∀ e2 pfx2, recur e2 pfx2 (depth + 1) = []) :
    ∀ (l : List Entry) (line : String),
      line ∈ treeLoopGen recur pfx depth l →
      ∃ e ∈ l, line = pfx ++ "├── " ++ displayName e ∨
        line = pfx ++ "└── " ++ displayName e
  | [], _, hline => absurd hline (by simp [treeLoopGen])
  | c :: rest, line, hline => by
    simp only [treeLoopGen] at hline
    have hsub : (if isDirE c then
        recur c (pfx ++ (if rest.isEmpty then "    " else "│   ")) (depth + 1)
        else []) = [] := by
      split
      · exact H _ _
      · rfl
    rw [hsub, List.nil_append] at hline
    rcases List.mem_cons.mp hline with h1 | h2
    · refine ⟨c, List.mem_cons_self _ _, ?_⟩
      cases hrest : rest.isEmpty
      · rw [hrest] at h1
        exact Or.inl (by rw [h1]; rfl)
      · rw [hrest] at h1
        exact Or.inr (by rw [h1]; rfl)
    · obtain ⟨e, hm, he⟩ := treeLoopGen_mem pfx depth H rest line h2
      exact ⟨e, List.mem_cons_of_mem _ hm, he⟩

theorem treeLoopGen_emits (recur : Entry → String → Nat → List String)
    (pfx : String) (depth : Nat) :
    ∀ (l : List Entry) (c : Entry), c ∈ l →
      (pfx ++ "├── " ++ displayName c) ∈ treeLoopGen recur pfx depth l ∨
      (pfx ++ "└── " ++ displayName c) ∈ treeLoopGen recur pfx depth l
  | [], _, hm => absurd hm (by simp)
  | c0 :: rest, c, hm => by
    rcases List.mem_cons.mp hm with rfl | hm2
    · cases hrest : rest.isEmpty
      · left
        simp only [treeLoopGen, hrest]
        exact List.mem_cons_self _ _
      · right
        simp only [treeLoopGen, hrest]
        exact List.mem_cons_self _ _
    · rcases treeLoopGen_emits recur pfx depth rest c hm2 with h | h
      · left
        simp only [treeLoopGen]
        exact List.mem_cons_of_mem _ (List.mem_append_right _ h)
      · right
        simp only [treeLoopGen]
        exact List.mem_cons_of_mem _ (List.mem_append_right _ h)

theorem addToTreeF_depth0_mem {a : Analyzer} (hd : a.max_depth = some 0)
    (f : Nat) (rn : String) (children : List Entry) (line : String)
    (hline : line ∈ addToTreeF f a (.dir rn children) "" 0) :
    ∃ e ∈ children, line = "├── " ++ displayName e ∨
      line = "└── " ++ displayName e := by
  cases f with
  | zero => cases hline
  | succ f =>
    simp only [addToTreeF, depthExceeded_zero, Bool.false_eq_true, if_false] at hline
    have H : ∀ e2 pfx2, addToTreeF f a e2 pfx2 (0 + 1) = [] := by
      intro e2 pfx2
      exact addToTreeF_depth_stop (depthExceeded_one_of_zero hd)
    obtain ⟨e, hm, he⟩ := treeLoopGen_mem "" 0 H _ line hline
    refine ⟨e, mem_sortEntries.mp (List.mem_of_mem_filter hm), ?_⟩
    rcases he with h | h
    · exact Or.inl (by rw [h]; simp)
    · exact Or.inr (by rw [h]; simp)

/-- C9: with `maxDepth = 0`, the tree rendering lists only the root's name
and its direct children (each rendered line beyond the root is a branch line
for an entry of the root's listing, so no grandchild appears), and every
pair collected by `collect_code_files` is a file sitting directly in the
root's listing (its relative path is just the file's basename). -/
theorem c9_depth_law (a : Analyzer) (root rn : String) (children : List Entry)
    (st : Stats) (hd : a.max_depth = some 0) :
    (∀ x ∈ (collect_code_files a root (.dir rn children) st).1,
       ∃ n fd, Entry.file n fd ∈ children ∧ x.1 = n) ∧
    (∀ line ∈ treeRootLines a (.dir rn children),
       line = rn ∨ ∃ e ∈ children,
         line = "├── " ++ displayName e ∨ line = "└── " ++ displayName e) := by
  constructor
  · intro x hx
    exact processDirF_depth0_mem hd _ root rn children _ x hx
  · intro line hline
    rcases List.mem_cons.mp hline with h | h
    · exact Or.inl h
    · exact Or.inr (addToTreeF_depth0_mem hd _ rn children line h)

/-- Witness for C9 at a concrete tree with a subdirectory holding a file:
nothing under the subdirectory is collected or rendered. -/
theorem c9_depth_law_witness :
    (∀ x ∈ (collect_code_files (mkAnalyzer [] [] (1024 * 1024) 1000 (some 0) 500) "root"
        (.dir "proj" [.file "a.py" (asciiFile fiveLines),
          .dir "sub" [.file "b.py" (asciiFile fiveLines)]]) initStats).1,
       ∃ n fd, Entry.file n fd ∈ [Entry.file "a.py" (asciiFile fiveLines),
          Entry.dir "sub" [Entry.file "b.py" (asciiFile fiveLines)]] ∧ x.1 = n) ∧
    (∀ line ∈ treeRootLines (mkAnalyzer [] [] (1024 * 1024) 1000 (some 0) 500)
        (.dir "proj" [.file "a.py" (asciiFile fiveLines),
          .dir "sub" [.file "b.py" (asciiFile fiveLines)]]),
       line = "proj" ∨ ∃ e ∈ [Entry.file "a.py" (asciiFile fiveLines),
          Entry.dir "sub" [Entry.file "b.py" (asciiFile fiveLines)]],
         line = "├── " ++ displayName e ∨ line = "└── " ++ displayName e) :=
  c9_depth_law (mkAnalyzer [] [] (1024 * 1024) 1000 (some 0) 500) "root" "proj"
    [Entry.file "a.py" (asciiFile fiveLines),
     Entry.dir "sub" [Entry.file "b.py" (asciiFile fiveLines)]] initStats rfl

/-- C5 counterexample: the claim says file entries are never omitted from
the tree rendering even when their name matches an excluded directory name.
Here a plain FILE named `build` (a member of `DEFAULT_EXCLUDE_DIRS`) is
omitted from the rendering: only the root and `a.py` lines appear. -/
theorem c5_tree_counterexample :
    DEFAULT_EXCLUDE_DIRS.contains "build" = true ∧
    treeRootLines defaultAnalyzer
      (.dir "proj" [.file "build" (asciiFile fiveLines), .file "a.py" (asciiFile "x")]) =
      ["proj", "└── a.py"] :=
  ⟨by decide, by decide⟩

/-- C5 amended: the tree renderer's exclusion is purely name-based — ANY
entry (file or directory) whose name is in `excludedDirectoryNames` is
omitted, and the rendering is independent of it; a file entry whose name is
NOT in that set always gets its branch line in the root listing, even when
it would be excluded from content collection. -/
theorem c5_tree_amended :
    (∀ (a : Analyzer) (pn : String) (x : Entry) (l₁ l₂ : List Entry),
       a.exclude_dirs.contains (entryName x) = true →
       generate_tree a (.dir pn (l₁ ++ x :: l₂)) =
         generate_tree a (.dir pn (l₁ ++ l₂))) ∧
    (∀ (a : Analyzer) (rn n : String) (fd : FileData) (l₁ l₂ : List Entry),
       a.exclude_dirs.contains n = false →
       ("├── " ++ n) ∈ treeRootLines a (.dir rn (l₁ ++ .file n fd :: l₂)) ∨
       ("└── " ++ n) ∈ treeRootLines a (.dir rn (l₁ ++ .file n fd :: l₂))) := by
  constructor
  · intro a pn x l₁ l₂ hx
    have hle := entryFuel_sublist_le pn x l₁ l₂
    unfold generate_tree treeRootLines
    show String.intercalate "\n" (pn :: _) = String.intercalate "\n" (pn :: _)
    rw [addToTreeF_skip_named hx]
    rw [addToTreeF_mono _ _ a _ "" 0 hle (le_refl _)]
  · intro a rn n fd l₁ l₂ hn
    unfold treeRootLines
    rw [show entryFuel (.dir rn (l₁ ++ .file n fd :: l₂)) =
        entriesFuel (l₁ ++ .file n fd :: l₂) + 1 from by rw [entryFuel_dir]; omega]
    simp only [addToTreeF, depthExceeded_zero, Bool.false_eq_true, if_false]
    have hmem : Entry.file n fd ∈ (sortEntries (l₁ ++ .file n fd :: l₂)).filter
        (fun c => !(a.exclude_dirs.contains (entryName c))) := by
      refine List.mem_filter.mpr ⟨?_, ?_⟩
      · exact mem_sortEntries.mpr (List.mem_append_right _ (List.mem_cons_self _ _))
      · show (!(a.exclude_dirs.contains (entryName (.file n fd)))) = true
        unfold entryName
        rw [hn]
        rfl
    rcases treeLoopGen_emits _ "" 0 _ (Entry.file n fd) hmem with h | h
    · exact Or.inl (List.mem_cons_of_mem _ (by simpa using h))
    · exact Or.inr (List.mem_cons_of_mem _ (by simpa using h))

/-- Witness for C5 amended at concrete inputs: pruning a file named `build`
and rendering a file named `a.py`. -/
theorem c5_tree_amended_witness :
    generate_tree defaultAnalyzer
        (.dir "proj" ([] ++ .file "build" (asciiFile fiveLines) :: [.file "a.py" (asciiFile "x")])) =
      generate_tree defaultAnalyzer (.dir "proj" ([] ++ [.file "a.py" (asciiFile "x")])) ∧
    (("├── " ++ "a.py") ∈ treeRootLines defaultAnalyzer
        (.dir "proj" ([] ++ .file "a.py" (asciiFile "x") :: [])) ∨
     ("└── " ++ "a.py") ∈ treeRootLines defaultAnalyzer
        (.dir "proj" ([] ++ .file "a.py" (asciiFile "x") :: []))) :=
  ⟨c5_tree_amended.1 defaultAnalyzer "proj" (.file "build" (asciiFile fiveLines)) []
      [.file "a.py" (asciiFile "x")] (by decide),
   c5_tree_amended.2 defaultAnalyzer "proj" "a.py" (asciiFile "x") [] [] (by decide)⟩

/-! ## Split/join lemmas for the truncation law -/

theorem string_ext {a b : String} (h : a.data = b.data) : a = b := by
  cases a
  cases b
  exact congrArg String.mk h

theorem data_append (a b : String) : (a ++ b).data = a.data ++ b.data := rfl

theorem splitChars_ne_nil : ∀ cs : List Char, splitChars cs ≠ []
  | [] => by simp [splitChars]
  | c :: cs => by
    simp only [splitChars]
    split
    · simp
    · split
      · simp
      · simp

theorem not_nl_mem_splitChars : ∀ (cs : List Char) (p : List Char),
    p ∈ splitChars cs → '\n' ∉ p
  | [], p, hp => by
    simp only [splitChars, List.mem_singleton] at hp
    subst hp
    simp
  | c :: cs, p, hp => by
    simp only [splitChars] at hp
    by_cases hc : c = '\n'
    · rw [if_pos hc] at hp
      rcases List.mem_cons.mp hp with rfl | hm
      · simp
      · exact not_nl_mem_splitChars cs p hm
    · rw [if_neg hc] at hp
      cases hsp : splitChars cs with
      | nil => exact absurd hsp (splitChars_ne_nil cs)
      | cons t ts =>
        rw [hsp] at hp
        rcases List.mem_cons.mp hp with rfl | hm
        · intro hmem
          rcases List.mem_cons.mp hmem with h1 | h2
          · exact hc h1.symm
          · exact not_nl_mem_splitChars cs t (by rw [hsp]; exact List.mem_cons_self _ _) h2
        · exact not_nl_mem_splitChars cs p (by rw [hsp]; exact List.mem_cons_of_mem _ hm)

theorem splitChars_no_nl : ∀ cs : List Char, '\n' ∉ cs → splitChars cs = [cs]
  | [], _ => rfl
  | c :: cs, h => by
    have hc : ¬(c = '\n') := fun hcc => h (hcc ▸ List.mem_cons_self _ _)
    have hcs : '\n' ∉ cs := fun hm => h (List.mem_cons_of_mem _ hm)
    simp only [splitChars, if_neg hc, splitChars_no_nl cs hcs]

theorem splitChars_append_nl : ∀ (xs ys : List Char), '\n' ∉ xs →
    splitChars (xs ++ '\n' :: ys) = xs :: splitChars ys
  | [], ys, _ => by simp [splitChars]
  | x :: xs, ys, h => by
    have hx : ¬(x = '\n') := fun hxx => h (hxx ▸ List.mem_cons_self _ _)
    have hxs : '\n' ∉ xs := fun hm => h (List.mem_cons_of_mem _ hm)
    show splitChars (x :: (xs ++ '\n' :: ys)) = (x :: xs) :: splitChars ys
    simp only [splitChars, if_neg hx, splitChars_append_nl xs ys hxs]

theorem joinChars_cons_ne_nil (c : List Char) (rest : List (List Char))
    (h : rest ≠ []) : joinChars (c :: rest) = c ++ '\n' :: joinChars rest := by
  cases rest with
  | nil => exact absurd rfl h
  | cons y ys => rfl

theorem splitChars_joinChars :
    ∀ (chunks : List (List Char)) (tl : List Char),
      (∀ c ∈ chunks, '\n' ∉ c) → '\n' ∉ tl →
      splitChars (joinChars (chunks ++ [('\n' :: tl)])) = chunks ++ [[], tl]
  | [], tl, _, htl => by
    show splitChars ('\n' :: tl) = [[], tl]
    simp [splitChars, splitChars_no_nl tl htl]
  | c :: cs, tl, hchunks, htl => by
    have hc : '\n' ∉ c := hchunks c (List.mem_cons_self _ _)
    have hcs : ∀ x ∈ cs, '\n' ∉ x := fun x hx => hchunks x (List.mem_cons_of_mem _ hx)
    rw [show (c :: cs) ++ [('\n' :: tl)] = c :: (cs ++ [('\n' :: tl)]) from rfl,
      joinChars_cons_ne_nil c _ (by simp),
      splitChars_append_nl c _ hc,
      splitChars_joinChars cs tl hcs htl]
    rfl

theorem digitChar_ne_nl (k : Nat) (hk : k < 10) : Nat.digitChar k ≠ '\n' := by
  interval_cases k <;> decide

theorem toDigitsCore_ne_nl : ∀ (fuel n : Nat) (acc : List Char),
    (∀ c ∈ acc, c ≠ '\n') → ∀ c ∈ Nat.toDigitsCore 10 fuel n acc, c ≠ '\n'
  | 0, _, _, hacc => hacc
  | fuel + 1, n, acc, hacc => by
    simp only [Nat.toDigitsCore]
    split
    · intro c hc
      rcases List.mem_cons.mp hc with rfl | hm
      · exact digitChar_ne_nl _ (Nat.mod_lt _ (by omega))
      · exact hacc _ hm
    · refine toDigitsCore_ne_nl fuel _ _ ?_
      intro c hc
      rcases List.mem_cons.mp hc with rfl | hm
      · exact digitChar_ne_nl _ (Nat.mod_lt _ (by omega))
      · exact hacc _ hm

theorem repr_no_nl (n : Nat) : '\n' ∉ (Nat.repr n).data := by
  intro h
  exact toDigitsCore_ne_nl (n + 1) n [] (by intro c hc; cases hc) '\n' h rfl

/-- The visible text of the truncation marker: everything after its leading
line feed, mentioning the threshold `n`. -/
def markerLine (n : Nat) : String :=
  "... [Content truncated - exceeded " ++ Nat.repr n ++ " lines] ..."

theorem marker_eq (n : Nat) :
    ("\n... [Content truncated - exceeded " ++ Nat.repr n ++ " lines] ..." : String) =
      "\n" ++ markerLine n := rfl

theorem markerLine_no_nl (n : Nat) : '\n' ∉ (markerLine n).data := by
  unfold markerLine
  intro h
  simp only [data_append] at h
  rcases List.mem_append.mp h with h1 | h2
  · rcases List.mem_append.mp h1 with h3 | h4
    · exact absurd h3 (by decide)
    · exact repr_no_nl n h4
  · exact absurd h2 (by decide)

theorem toList_pySplit (content : String) :
    (pySplit content).map String.toList = splitChars content.data := by
  unfold pySplit
  rw [List.map_map]
  have : String.toList ∘ String.mk = id := by
    funext l
    rfl
  rw [this, List.map_id]
  rfl

/-- C4 counterexample: the claim says the truncated result has exactly
`maxLinesPerFile + 1` lines.  With `max_lines = 2` and a four-line content,
the result has 4 = `max_lines + 2` lines: the marker string itself begins
with a line feed, so an empty line precedes the marker line. -/
theorem c4_truncation_counterexample :
    (pySplit "a\nb\nc\nd").length = 4 ∧
    process_content 2 "a\nb\nc\nd" =
      "a\nb\n\n... [Content truncated - exceeded 2 lines] ..." ∧
    (pySplit (process_content 2 "a\nb\nc\nd")).length = 4 ∧
    ¬((pySplit (process_content 2 "a\nb\nc\nd")).length = 2 + 1) :=
  ⟨by decide, by decide, by decide, by decide⟩

/-- C4 amended: for `L <= maxLinesPerFile` lines the content is returned
unchanged; for `L > maxLinesPerFile` the normalized result has exactly
`maxLinesPerFile + 2` lines — the kept lines, one empty line, and the
marker line (which mentions the truncation threshold `n` through
`Nat.repr n`) — because the appended marker string itself begins with a
line feed. -/
theorem c4_truncation_amended (n : Nat) (content : String) :
    ((pySplit content).length ≤ n → process_content n content = content) ∧
    (n < (pySplit content).length →
      pySplit (process_content n content) =
        (pySplit content).take n ++ ["", markerLine n] ∧
      (pySplit (process_content n content)).length = n + 2) := by
  constructor
  · intro h
    unfold process_content
    rw [if_neg (not_lt.mpr h)]
  · intro h
    have hres : pySplit (process_content n content) =
        (pySplit content).take n ++ ["", markerLine n] := by
      rw [show process_content n content = pyJoin ((pySplit content).take n ++
          ["\n... [Content truncated - exceeded " ++ Nat.repr n ++ " lines] ..."]) from by
        unfold process_content
        rw [if_pos h]]
      unfold pyJoin
      rw [List.map_append, List.map_take, toList_pySplit]
      rw [show (["\n... [Content truncated - exceeded " ++ Nat.repr n ++
          " lines] ..."].map String.toList) = [('\n' :: (markerLine n).data)] from rfl]
      rw [show ∀ cs : List Char, pySplit (String.mk cs) = (splitChars cs).map String.mk
        from fun cs => rfl]
      rw [splitChars_joinChars ((splitChars content.data).take n) (markerLine n).data
        (fun c hc => not_nl_mem_splitChars content.data c (List.take_subset n _ hc))
        (markerLine_no_nl n)]
      rw [List.map_append, List.map_take]
      rw [show (splitChars content.data).map String.mk = pySplit content from rfl]
      rfl
    refine ⟨hres, ?_⟩
    rw [hres, List.length_append, List.length_take]
    simp only [List.length_cons, List.length_nil]
    omega

/-- Witness for C4 amended at concrete inputs. -/
theorem c4_truncation_amended_witness :
    process_content 4 "a\nb" = "a\nb" ∧
    pySplit (process_content 2 "a\nb\nc\nd") =
      (pySplit "a\nb\nc\nd").take 2 ++ ["", markerLine 2] ∧
    (pySplit (process_content 2 "a\nb\nc\nd")).length = 2 + 2 :=
  ⟨(c4_truncation_amended 4 "a\nb").1 (by decide),
   ((c4_truncation_amended 2 "a\nb\nc\nd").2 (by decide)).1,
   ((c4_truncation_amended 2 "a\nb\nc\nd").2 (by decide)).2⟩

end PTM
